import Mathlib

/-!
Shallow embedding of the column codec core of the chconn ClickHouse driver:
the Uint64 scalar column (src/column/uint64.go), the DateTime column
(src/unnamed/part_000) and the ArrayNullable column
(src/column/array_nullable.go). Machine bytes are `Nat` values below 256,
buffers are `List Nat`, Go `uint64` values are `Nat` with explicit `% 2^64`
where overflow matters, and `time.Time` is modelled by its Unix epoch as an
`Int` (the codec only ever reads `v.Unix()` and builds `time.Unix(sec, 0)`).
-/

namespace Chconn

/-- Little-endian interpretation of a byte sequence, as computed by Go's
`binary.LittleEndian.Uint64` / `Uint32` on a span of the corresponding width. -/
def leUint : List Nat → Nat
  | [] => 0
  | byte :: rest => byte + 256 * leUint rest

/-- The eight bytes Go appends in `Uint64.Append`:
`byte(v), byte(v>>8), ..., byte(v>>56)` for a `uint64` value `v`. -/
def u8Bytes (v : Nat) : List Nat :=
  [v % 256, (v >>> 8) % 256, (v >>> 16) % 256, (v >>> 24) % 256,
   (v >>> 32) % 256, (v >>> 40) % 256, (v >>> 48) % 256, (v >>> 56) % 256]

/-- The four bytes Go appends in `DateTime.Append` for a positive timestamp `t`:
`byte(t), byte(t>>8), byte(t>>16), byte(t>>24)` (arithmetic shift on a positive
`int64` agrees with the `Nat` shift on `t.toNat`). -/
def u4Bytes (t : Nat) : List Nat :=
  [t % 256, (t >>> 8) % 256, (t >>> 16) % 256, (t >>> 24) % 256]

/-- Modelled from the spec: `emptyByte` (declared outside the provided sources) is an
all-zero byte array of which the first `size` bytes are appended by `AppendEmpty`;
the spec states that appendEmpty "appends `elementWidth` zero bytes". -/
def emptyByte : List Nat := List.replicate 1024 0

/-- Modelled from the spec: the `Uint64Size` constant (outside the provided sources);
the spec fixes "8 bytes for 64-bit integers". -/
def Uint64Size : Nat := 8

/-- Modelled from the spec: the `DatetimeSize` constant (outside the provided sources);
the spec fixes "4 bytes for 32-bit epoch-seconds timestamps". -/
def DatetimeSize : Nat := 4

/-- Insertion-ordered dictionary lookup: position of `v` in the list of distinct
values, if present. A Go `map[T]int` whose every binding was created as
`dict[v] = len(dict)` is exactly the map sending the `k`-th inserted value to `k`,
so the insertion-ordered list of distinct values determines it. -/
def dictFind {α : Type} [DecidableEq α] : List α → α → Option Nat
  | [], _ => none
  | x :: xs, v => if x = v then some 0 else (dictFind xs v).map (· + 1)

/-- State of the `Uint64` column (type `Uint64` in src/column/uint64.go), with the
fields of the embedded `column` base struct flattened in: `b`/`i`/`totalByte`/`size`
are the read buffer, cursor, buffer length and element width, `writerData`/`numRow`
the write side, `colNullable` the nullability bitmap bytes. -/
structure Uint64 where
  b : List Nat
  i : Nat
  totalByte : Nat
  size : Nat
  numRow : Nat
  writerData : List Nat
  nullable : Bool
  colNullable : List Nat
  val : Nat
  dict : List Nat
  keys : List Nat

/-- `NewUint64` (src/column/uint64.go lines 16-25): fresh column with element
width `Uint64Size` and empty dictionary. -/
def NewUint64 (nullable : Bool) : Uint64 :=
  { b := [], i := 0, totalByte := 0, size := Uint64Size, numRow := 0,
    writerData := [], nullable := nullable, colNullable := [], val := 0,
    dict := [], keys := [] }

/-- `Uint64.Next` (lines 30-37): returns false at end of block, otherwise advances
the cursor by `size` and decodes the consumed span little-endian into `val`. -/
def Uint64.Next (c : Uint64) : Bool × Uint64 :=
  if c.i ≥ c.totalByte then (false, c)
  else
    let iNew := c.i + c.size
    (true, { c with i := iNew, val := leUint ((c.b.drop (iNew - c.size)).take c.size) })

/-- `Uint64.Value` (lines 42-44). -/
def Uint64.Value (c : Uint64) : Nat := c.val

/-- The loop of `Uint64.ReadAll` (lines 47-52): `for i := 0; i < totalByte; i += size`,
decoding `b[i:i+size]` each round. The extra `0 < size` guard only rules out the
infinite loop Go would enter for a zero element width; every constructed column has
`size = 8`. -/
def readAllLoop (b : List Nat) (size totalByte i : Nat) : List Nat :=
  if i < totalByte ∧ 0 < size then
    leUint ((b.drop i).take size) :: readAllLoop b size totalByte (i + size)
  else []
termination_by totalByte - i
decreasing_by omega

/-- `Uint64.ReadAll` (lines 47-52): appends every decoded row to the input slice;
the Go body reads only a local index and never assigns a field of `c`, so the
column state is returned unchanged. -/
def Uint64.ReadAll (c : Uint64) (value : List Nat) : List Nat × Uint64 :=
  (value ++ readAllLoop c.b c.size c.totalByte 0, c)

/-- `Uint64.Append` (lines 110-122): eight little-endian bytes of `v`, row count +1. -/
def Uint64.Append (c : Uint64) (v : Nat) : Uint64 :=
  { c with numRow := c.numRow + 1, writerData := c.writerData ++ u8Bytes v }

/-- `Uint64.AppendEmpty` (lines 125-128): `emptyByte[:c.size]` appended, row count +1. -/
def Uint64.AppendEmpty (c : Uint64) : Uint64 :=
  { c with numRow := c.numRow + 1, writerData := c.writerData ++ emptyByte.take c.size }

/-- `Uint64.AppendP` (lines 135-143). -/
def Uint64.AppendP (c : Uint64) (v : Option Nat) : Uint64 :=
  match v with
  | none => let c := c.AppendEmpty; { c with colNullable := c.colNullable ++ [1] }
  | some w => let c := { c with colNullable := c.colNullable ++ [0] }; c.Append w

/-- `Uint64.AppendDict` (lines 148-160): dictionary lookup; on a miss the value gets
key `len(dict)`, is inserted, and is physically appended; the (nullable-shifted)
key is recorded. -/
def Uint64.AppendDict (c : Uint64) (v : Nat) : Uint64 :=
  match dictFind c.dict v with
  | some key =>
      if c.nullable then { c with keys := c.keys ++ [key + 1] }
      else { c with keys := c.keys ++ [key] }
  | none =>
      let key := c.dict.length
      let c := Uint64.Append { c with dict := c.dict ++ [v] } v
      if c.nullable then { c with keys := c.keys ++ [key + 1] }
      else { c with keys := c.keys ++ [key] }

/-- `Uint64.AppendDictNil` (lines 163-165): records key `0` only. -/
def Uint64.AppendDictNil (c : Uint64) : Uint64 :=
  { c with keys := c.keys ++ [0] }

/-- `Uint64.AppendDictP` (lines 173-185): `nil` records key `0` only; otherwise as
`AppendDict` but always recording `key+1`. -/
def Uint64.AppendDictP (c : Uint64) (v : Option Nat) : Uint64 :=
  match v with
  | none => { c with keys := c.keys ++ [0] }
  | some w =>
      match dictFind c.dict w with
      | some key => { c with keys := c.keys ++ [key + 1] }
      | none =>
          let key := c.dict.length
          let c := Uint64.Append { c with dict := c.dict ++ [w] } w
          { c with keys := c.keys ++ [key + 1] }

/-- `Uint64.Keys` (lines 188-190). -/
def Uint64.Keys (c : Uint64) : List Nat := c.keys

/-- `Uint64.Reset` (lines 197-201) on top of the embedded `column.Reset`.
Modelled from the spec for the base part (outside the provided sources): reset
"clears `writeBuffer`, `rowCount`, bitmap, dictionary, and key sequence; does not
touch `readBuffer`/`cursor`". -/
def Uint64.Reset (c : Uint64) : Uint64 :=
  { c with numRow := 0, writerData := [], colNullable := [], keys := [], dict := [] }

/-- The reader collaborator handing a raw byte block to the column for decoding
(spec section 6: "a reader collaborator supplies (rawBytes, rowCount) per block"):
rebinds the read buffer and rewinds the cursor. -/
def Uint64.bindRead (c : Uint64) (bytes : List Nat) : Uint64 :=
  { c with b := bytes, totalByte := bytes.length, i := 0 }

/-- The value sequence produced by repeatedly calling `Next` and `Value` until
`Next` returns false, starting from state `c`. The `0 < size` guard matches
`readAllLoop`. -/
def nextSeqLoop (c : Uint64) : List Nat :=
  if h : c.i < c.totalByte ∧ 0 < c.size then
    (Uint64.Next c).2.Value :: nextSeqLoop (Uint64.Next c).2
  else []
termination_by c.totalByte - c.i
decreasing_by
  have hlt : ¬ (c.i ≥ c.totalByte) := by omega
  simp [Uint64.Next, hlt]
  omega

/-- Folding `Append` over a list of values. -/
def appendAll (c : Uint64) (vs : List Nat) : Uint64 :=
  vs.foldl Uint64.Append c

/-- The byte stream produced by encoding each value of `vs` as its eight
little-endian bytes, in order. -/
def encBytes : List Nat → List Nat
  | [] => []
  | v :: vs => u8Bytes v ++ encBytes vs

/-- The call sequence `AppendDict a; AppendDict b; AppendDict a; AppendDict c;
AppendDict b` from state `s`. -/
def dictScenario (s : Uint64) (a b c : Nat) : Uint64 :=
  ((((s.AppendDict a).AppendDict b).AppendDict a).AppendDict c).AppendDict b

/-- State of the `DateTime` column (type `DateTime` in src/unnamed/part_000), with
the embedded `column` base struct flattened in as for `Uint64`. A `time.Time`
value is modelled by its Unix epoch in seconds as an `Int`: the codec reads a
time only through `v.Unix()` and builds times only as `time.Unix(sec, 0)`. -/
structure DateTime where
  b : List Nat
  i : Nat
  totalByte : Nat
  size : Nat
  numRow : Nat
  writerData : List Nat
  nullable : Bool
  colNullable : List Nat
  val : Int
  dict : List Int
  keys : List Nat

/-- `NewDateTime` (src/unnamed/part_000 lines 17-26): fresh column with element
width `DatetimeSize`. -/
def NewDateTime (nullable : Bool) : DateTime :=
  { b := [], i := 0, totalByte := 0, size := DatetimeSize, numRow := 0,
    writerData := [], nullable := nullable, colNullable := [], val := 0,
    dict := [], keys := [] }

/-- `DateTime.Next` (lines 31-38): decodes the consumed span as a little-endian
`uint32`, widened to `int64` and taken as a Unix epoch (`time.Unix(..., 0)`). -/
def DateTime.Next (c : DateTime) : Bool × DateTime :=
  if c.i ≥ c.totalByte then (false, c)
  else
    let iNew := c.i + c.size
    (true, { c with i := iNew, val := (leUint ((c.b.drop (iNew - c.size)).take c.size) : Int) })

/-- `DateTime.Value` (lines 43-45). -/
def DateTime.Value (c : DateTime) : Int := c.val

/-- The loop of `DateTime.ReadAll` (lines 48-53), decoding each span as in `Next`. -/
def dtReadAllLoop (b : List Nat) (size totalByte i : Nat) : List Int :=
  if i < totalByte ∧ 0 < size then
    (leUint ((b.drop i).take size) : Int) :: dtReadAllLoop b size totalByte (i + size)
  else []
termination_by totalByte - i
decreasing_by omega

/-- `DateTime.ReadAll` (lines 48-53): appends every decoded epoch to the input
slice; the column state is not mutated by the Go body. -/
def DateTime.ReadAll (c : DateTime) (value : List Int) : List Int × DateTime :=
  (value ++ dtReadAllLoop c.b c.size c.totalByte 0, c)

/-- `DateTime.Append` (lines 111-124): a time whose epoch is `≤ 0` is written as
`emptyByte[:size]`; otherwise the four low-order little-endian bytes of
`timestamp := v.Unix()` are written (`byte(timestamp)` through
`byte(timestamp>>24)` — on a positive `int64`, arithmetic shifts and byte
truncation agree with `Nat` shifts and `% 256` on `timestamp.toNat`). -/
def DateTime.Append (c : DateTime) (v : Int) : DateTime :=
  if v ≤ 0 then
    { c with numRow := c.numRow + 1, writerData := c.writerData ++ emptyByte.take c.size }
  else
    { c with numRow := c.numRow + 1, writerData := c.writerData ++ u4Bytes v.toNat }

/-- `DateTime.AppendEmpty` (lines 127-130). -/
def DateTime.AppendEmpty (c : DateTime) : DateTime :=
  { c with numRow := c.numRow + 1, writerData := c.writerData ++ emptyByte.take c.size }

/-- The reader collaborator rebinding the read buffer of a DateTime column
(spec section 6), as for `Uint64.bindRead`. -/
def DateTime.bindRead (c : DateTime) (bytes : List Nat) : DateTime :=
  { c with b := bytes, totalByte := bytes.length, i := 0 }

/-- State of `ArrayNullable[T]` (src/column/array_nullable.go). The two
collaborators that live outside the provided sources are modelled from the spec:
`offsets` is the offset track owned by `offsetColumn` ("a monotonically
non-decreasing sequence of cumulative per-row lengths"; `offsetColumn.Row i`
reads entry `i`, `offsetColumn.numRow` is its length), and `innerData` is the
flat optional-value content of the inner nullable `dataColumn` (what its
`DataP` returns; its `AppendP`/`AppendMultiP` append to it). `columnData` is the
derived cache field of the source struct itself (line 18). -/
structure ArrayNullable (T : Type) where
  offsets : List Nat
  innerData : List (Option T)
  columnData : List (Option T)

/-- A fresh `ArrayNullable` as built by `NewArrayNullable` (lines 22-39): empty
offset track, empty inner column, empty cache. -/
def NewArrayNullableFresh (T : Type) : ArrayNullable T :=
  { offsets := [], innerData := [], columnData := [] }

/-- `c.offsetColumn.Row row`: entry `row` of the offset track. Modelled from the
spec offset-track contract; out-of-range rows (a caller error that panics in Go)
default to 0. -/
def ArrayNullable.offsetRow {T : Type} (c : ArrayNullable T) (row : Nat) : Nat :=
  c.offsets.getD row 0

/-- `AppendLen n` of the embedded array base (outside the provided sources).
Modelled from the spec: "appendLength(n): pushes previousCumulative + n onto the
offset track". -/
def ArrayNullable.AppendLen {T : Type} (c : ArrayNullable T) (n : Nat) : ArrayNullable T :=
  { c with offsets := c.offsets ++ [c.offsets.getLast?.getD 0 + n] }

/-- `ArrayNullable.AppendItemP` (lines 146-148): one element through the inner
column's `AppendP`. -/
def ArrayNullable.AppendItemP {T : Type} (c : ArrayNullable T) (v : Option T) : ArrayNullable T :=
  { c with innerData := c.innerData ++ [v] }

/-- `ArrayNullable.AppendP` (lines 124-127): `AppendLen (len v)` then
`dataColumn.AppendMultiP(v...)`, which appends every element. -/
def ArrayNullable.AppendP {T : Type} (c : ArrayNullable T) (v : List (Option T)) : ArrayNullable T :=
  let c := c.AppendLen v.length
  { c with innerData := c.innerData ++ v }

/-- `ArrayNullable.getColumnData` (lines 165-170): when the cache is empty it is
recomputed as `dataColumn.DataP()` and stored; the pair returns the slice the Go
function returns together with the (possibly mutated) column. -/
def ArrayNullable.getColumnData {T : Type} (c : ArrayNullable T) :
    List (Option T) × ArrayNullable T :=
  if c.columnData.length = 0 then (c.innerData, { c with columnData := c.innerData })
  else (c.columnData, c)

/-- `ArrayNullable.RowP` (lines 66-74): copies
`getColumnData()[lastOffset : offsetColumn.Row row]` where `lastOffset` is
`offsetColumn.Row (row-1)` for `row ≠ 0` and 0 otherwise. Go slicing `s[lo:hi]`
is `drop lo` then `take (hi-lo)`. -/
def ArrayNullable.RowP {T : Type} (c : ArrayNullable T) (row : Nat) : List (Option T) :=
  let lastOffset := if row ≠ 0 then c.offsetRow (row - 1) else 0
  ((c.getColumnData.1.drop lastOffset).take (c.offsetRow row - lastOffset))

/-- `ArrayNullable.ReadRaw` (lines 156-163): the embedded `Array.ReadRaw`
(outside the provided sources) decodes the offset track and the inner nullable
column from the reader — modelled from the spec by installing the decoded
contents directly — and then, still inside `ReadRaw`, the source sets
`c.columnData = c.dataColumn.DataP()` (line 161). The error path of the inner
decode is not modelled: a successful decode is assumed. -/
def ArrayNullable.ReadRaw {T : Type} (c : ArrayNullable T) (offs : List Nat)
    (inner : List (Option T)) : ArrayNullable T :=
  let c := { c with offsets := offs, innerData := inner }
  { c with columnData := c.innerData }

/-- `Reset` of an `ArrayNullable`: the embedded array base reset (outside the
provided sources; the spec says reset clears all write state) plus the
`resetHook` installed by `NewArrayNullable` (lines 35-37), which truncates
`columnData` to length 0. -/
def ArrayNullable.Reset {T : Type} (_c : ArrayNullable T) : ArrayNullable T :=
  { offsets := [], innerData := [], columnData := [] }

/-- Folding `AppendP` over a list of rows. -/
def appendRows {T : Type} (c : ArrayNullable T) (rows : List (List (Option T))) : ArrayNullable T :=
  rows.foldl ArrayNullable.AppendP c

/-- Cumulative sums starting from `s`: the offset track the spec prescribes for
per-row lengths `n_0, n_1, ...`. -/
def cumFrom (s : Nat) : List Nat → List Nat
  | [] => []
  | n :: rest => (s + n) :: cumFrom (s + n) rest

/-- The spec's array scenario: `AppendLen 2`, items 10 and 20, `AppendLen 0`,
`AppendLen 1`, item 30, from a fresh column. -/
def arrayScenario : ArrayNullable Nat :=
  ((((((NewArrayNullableFresh Nat).AppendLen 2).AppendItemP (some 10)).AppendItemP
      (some 20)).AppendLen 0).AppendLen 1).AppendItemP (some 30)

/-- The destination shapes a caller can hand to `ArrayNullable.Scan`, as the
source distinguishes them: a `*[]*T` (first `switch` case, line 85), a `*any`
(line 88), a non-slice destination (`reflect.Indirect(dest).Kind() != Slice`,
line 98), a slice type assignable to `[]*T` (line 102), or a slice of some
other element type, which is converted element by element through the inner
column's dynamic `Scan` (lines 107-118) — that inner scan lives outside the
provided sources and is modelled by its outcome `elemErr i`, the error (if any)
it reports for flat element index `i`. -/
inductive ScanDest (T : Type) where
  | ptrSliceOptT : ScanDest T
  | ptrAny : ScanDest T
  | nonSlice : ScanDest T
  | assignableSlice : ScanDest T
  | otherSlice (elemErr : Nat → Option String) : ScanDest T

/-- Observable outcome of `ArrayNullable.Scan`: the destination was assigned the
row's optional values and `nil` was returned; the destination was assigned a
per-element converted slice and `nil` was returned; or an error was returned and
the destination was never assigned (in the source, `destValue.Set` runs only
after the conversion loop finishes without error). -/
inductive ScanOutcome (T : Type) where
  | assigned (v : List (Option T)) : ScanOutcome T
  | converted : ScanOutcome T
  | failed (msg : String) : ScanOutcome T

/-- The conversion loop of `ScanValue` (lines 113-118): scans flat element
indices `i, i+1, ...` (`count` of them) through the inner column; the first
failing index aborts with `cannot scan array item i: err`. -/
def scanItems {T : Type} (elemErr : Nat → Option String) : Nat → Nat → ScanOutcome T
  | _, 0 => .converted
  | i, n + 1 =>
      match elemErr i with
      | some e => .failed ("cannot scan array item " ++ toString i ++ ": " ++ e)
      | none => scanItems elemErr (i + 1) n

/-- `ArrayNullable.Scan` (lines 83-93) with `ScanValue` (lines 96-121) inlined
case by case: the typed `switch` assigns the row for `*[]*T` and `*any`;
`ScanValue` rejects non-slice destinations with the fixed error
`dest must be a pointer to slice`, assigns the row when the destination type is
assignable to `[]*T`, and otherwise converts the row span element by element. -/
def ArrayNullable.Scan {T : Type} (c : ArrayNullable T) (row : Nat) (dest : ScanDest T) :
    ScanOutcome T :=
  match dest with
  | .ptrSliceOptT => .assigned (c.RowP row)
  | .ptrAny => .assigned (c.RowP row)
  | .nonSlice => .failed "dest must be a pointer to slice"
  | .assignableSlice => .assigned (c.RowP row)
  | .otherSlice elemErr =>
      let lastOffset := if row ≠ 0 then c.offsetRow (row - 1) else 0
      let offset := c.offsetRow row
      scanItems elemErr lastOffset (offset - lastOffset)

/-! ## Helper lemmas -/

theorem leUint_u8Bytes (v : Nat) : leUint (u8Bytes v) = v % 2 ^ 64 := by
  simp only [u8Bytes, leUint, Nat.shiftRight_eq_div_pow]
  norm_num
  omega

theorem leUint_u4Bytes (t : Nat) : leUint (u4Bytes t) = t % 2 ^ 32 := by
  simp only [u4Bytes, leUint, Nat.shiftRight_eq_div_pow]
  norm_num
  omega

theorem u8Bytes_length (v : Nat) : (u8Bytes v).length = 8 := rfl

theorem u4Bytes_length (t : Nat) : (u4Bytes t).length = 4 := rfl

theorem u4Bytes_mod (t : Nat) : u4Bytes (t % 2 ^ 32) = u4Bytes t := by
  simp only [u4Bytes, Nat.shiftRight_eq_div_pow, List.cons.injEq, and_true]
  norm_num
  omega

theorem encBytes_length (vs : List Nat) : (encBytes vs).length = 8 * vs.length := by
  induction vs with
  | nil => rfl
  | cons v vs ih => simp [encBytes, ih, u8Bytes]; ring

theorem appendAll_writerData (c : Uint64) (vs : List Nat) :
    (appendAll c vs).writerData = c.writerData ++ encBytes vs := by
  induction vs generalizing c with
  | nil => simp [appendAll, encBytes]
  | cons v vs ih =>
      show (appendAll (c.Append v) vs).writerData = _
      rw [ih, encBytes]
      simp [Uint64.Append]

theorem readAllLoop_stop {b : List Nat} {s tb i : Nat} (h : ¬ (i < tb ∧ 0 < s)) :
    readAllLoop b s tb i = [] := by
  rw [readAllLoop, if_neg h]

theorem readAllLoop_step {b : List Nat} {s tb i : Nat} (h : i < tb ∧ 0 < s) :
    readAllLoop b s tb i = leUint ((b.drop i).take s) :: readAllLoop b s tb (i + s) := by
  rw [readAllLoop, if_pos h]

theorem readAllLoop_shift8 (pre rest : List Nat) (hpre : pre.length = 8) :
    ∀ n tb i, tb - i ≤ n →
      readAllLoop (pre ++ rest) 8 (8 + tb) (8 + i) = readAllLoop rest 8 tb i := by
  intro n
  induction n with
  | zero =>
      intro tb i h
      rw [readAllLoop_stop (by omega), readAllLoop_stop (by omega)]
  | succ n ih =>
      intro tb i h
      by_cases hlt : i < tb
      · rw [readAllLoop_step ⟨by omega, by omega⟩, readAllLoop_step ⟨hlt, by omega⟩]
        have hdrop : (pre ++ rest).drop (8 + i) = rest.drop i := by
          have h2 : 8 + i = pre.length + i := by omega
          rw [h2, List.drop_append]
        rw [hdrop]
        have h3 : 8 + i + 8 = 8 + (i + 8) := by omega
        rw [h3, ih tb (i + 8) (by omega)]
      · rw [readAllLoop_stop (by omega), readAllLoop_stop (by omega)]

theorem readAllLoop_encBytes (vs : List Nat) :
    readAllLoop (encBytes vs) 8 (encBytes vs).length 0 = vs.map (· % 2 ^ 64) := by
  induction vs with
  | nil => rw [readAllLoop_stop (by simp [encBytes])]; simp
  | cons v vs ih =>
      have hlen : (encBytes (v :: vs)).length = 8 + (encBytes vs).length := by
        simp [encBytes, u8Bytes]
        omega
      rw [show encBytes (v :: vs) = u8Bytes v ++ encBytes vs from rfl] at hlen ⊢
      rw [hlen, readAllLoop_step ⟨by omega, by omega⟩]
      have hhead : ((u8Bytes v ++ encBytes vs).drop 0).take 8 = u8Bytes v := by
        rw [List.drop_zero]
        rw [show (8 : Nat) = (u8Bytes v).length from rfl, List.take_left]
      rw [hhead, leUint_u8Bytes]
      rw [show (0 : Nat) + 8 = 8 + 0 from by omega]
      rw [readAllLoop_shift8 (u8Bytes v) (encBytes vs) rfl (encBytes vs).length
            (encBytes vs).length 0 (by omega)]
      rw [ih]
      rfl

theorem nextSeqLoop_stop {c : Uint64} (h : ¬ (c.i < c.totalByte ∧ 0 < c.size)) :
    nextSeqLoop c = [] := by
  rw [nextSeqLoop, dif_neg h]

theorem nextSeqLoop_step {c : Uint64} (h : c.i < c.totalByte ∧ 0 < c.size) :
    nextSeqLoop c = (Uint64.Next c).2.Value :: nextSeqLoop (Uint64.Next c).2 := by
  rw [nextSeqLoop, dif_pos h]

theorem nextSeqLoop_eq_readAllLoop :
    ∀ (n : Nat) (c : Uint64), c.totalByte - c.i ≤ n →
      nextSeqLoop c = readAllLoop c.b c.size c.totalByte c.i := by
  intro n
  induction n with
  | zero =>
      intro c h
      rw [nextSeqLoop_stop (by omega), readAllLoop_stop (by omega)]
  | succ n ih =>
      intro c h
      by_cases hc : c.i < c.totalByte ∧ 0 < c.size
      · rw [nextSeqLoop_step hc, readAllLoop_step hc]
        have hnext : (Uint64.Next c).2 =
            { c with i := c.i + c.size, val := leUint ((c.b.drop c.i).take c.size) } := by
          rw [Uint64.Next, if_neg (by omega)]
          simp
        rw [hnext]
        rw [ih { c with i := c.i + c.size, val := leUint ((c.b.drop c.i).take c.size) }
              (by show c.totalByte - (c.i + c.size) ≤ n; omega)]
        rfl
      · rw [nextSeqLoop_stop hc, readAllLoop_stop hc]

theorem dictFind_eq_none_iff {α : Type} [DecidableEq α] (l : List α) (v : α) :
    dictFind l v = none ↔ v ∉ l := by
  induction l with
  | nil => simp [dictFind]
  | cons x xs ih =>
      by_cases hx : x = v
      · simp [dictFind, hx]
      · simp [dictFind, hx, ih, Ne.symm hx]

theorem dictFind_concat_self {α : Type} [DecidableEq α] (l : List α) (v : α) (h : v ∉ l) :
    dictFind (l ++ [v]) v = some l.length := by
  induction l with
  | nil => simp [dictFind]
  | cons x xs ih =>
      have hx : ¬ x = v := by
        intro e
        exact h (by simp [e])
      have hxs : v ∉ xs := by
        intro hm
        exact h (List.mem_cons_of_mem _ hm)
      simp [dictFind, hx, ih hxs]

theorem dictFind_mem {α : Type} [DecidableEq α] (l : List α) (v : α) (h : v ∈ l) :
    ∃ k, dictFind l v = some k := by
  cases hd : dictFind l v with
  | none => exact absurd h ((dictFind_eq_none_iff l v).mp hd)
  | some k => exact ⟨k, rfl⟩

theorem map_mod64_eq_self (ws : List Nat) (hws : ∀ v ∈ ws, v < 2 ^ 64) :
    ws.map (· % 2 ^ 64) = ws := by
  induction ws with
  | nil => rfl
  | cons w ws ih =>
      simp only [List.map_cons]
      rw [Nat.mod_eq_of_lt (hws w (List.mem_cons_self w ws)),
          ih (fun v hv => hws v (List.mem_cons_of_mem w hv))]

theorem dtReadAllLoop_stop {b : List Nat} {s tb i : Nat} (h : ¬ (i < tb ∧ 0 < s)) :
    dtReadAllLoop b s tb i = [] := by
  rw [dtReadAllLoop, if_neg h]

theorem dtReadAllLoop_step {b : List Nat} {s tb i : Nat} (h : i < tb ∧ 0 < s) :
    dtReadAllLoop b s tb i
      = (leUint ((b.drop i).take s) : Int) :: dtReadAllLoop b s tb (i + s) := by
  rw [dtReadAllLoop, if_pos h]

theorem dtReadAllLoop_u4 (t : Nat) :
    dtReadAllLoop (u4Bytes t) 4 4 0 = [((t % 2 ^ 32 : Nat) : Int)] := by
  rw [dtReadAllLoop_step ⟨by omega, by omega⟩, dtReadAllLoop_stop (by omega)]
  have htake : ((u4Bytes t).drop 0).take 4 = u4Bytes t := by
    rw [List.drop_zero, show (4 : Nat) = (u4Bytes t).length from rfl, List.take_length]
  rw [htake, leUint_u4Bytes]

theorem cumFrom_length (lens : List Nat) : ∀ s, (cumFrom s lens).length = lens.length := by
  induction lens with
  | nil => intro s; rfl
  | cons n rest ih => intro s; simp [cumFrom, ih]

theorem cumFrom_getD (lens : List Nat) :
    ∀ (s i : Nat), i < lens.length →
      (cumFrom s lens).getD i 0 = s + (lens.take (i + 1)).sum := by
  induction lens with
  | nil =>
      intro s i h
      simp at h
  | cons n rest ih =>
      intro s i h
      cases i with
      | zero => simp [cumFrom]
      | succ i =>
          have hi : i < rest.length := by simpa using h
          show (cumFrom (s + n) rest).getD i 0 = _
          rw [ih (s + n) i hi]
          simp [List.take, List.sum_cons]
          omega

theorem lens_getD {T : Type} (rows : List (List (Option T))) :
    ∀ i, i < rows.length → (rows.map List.length).getD i 0 = (rows.getD i []).length := by
  induction rows with
  | nil =>
      intro i h
      simp at h
  | cons r rest ih =>
      intro i h
      cases i with
      | zero => simp
      | succ i => simpa using ih i (by simpa using h)

theorem take_succ_sum (lens : List Nat) (i : Nat) (h : i < lens.length) :
    (lens.take (i + 1)).sum = (lens.take i).sum + lens.getD i 0 := by
  rw [List.take_succ, List.sum_append, List.getElem?_eq_getElem h]
  simp [List.getD, List.getElem?_eq_getElem h]

theorem join_slice {T : Type} (rows : List (List (Option T))) :
    ∀ i, i < rows.length →
      (rows.flatten.drop ((rows.map List.length).take i).sum).take (rows.getD i []).length
        = rows.getD i [] := by
  induction rows with
  | nil =>
      intro i h
      simp at h
  | cons r rest ih =>
      intro i h
      cases i with
      | zero =>
          simp only [List.map_cons, List.take_zero, List.sum_nil, List.flatten, List.drop_zero,
            List.getD_cons_zero]
          exact List.take_left r rest.flatten
      | succ i =>
          have hi : i < rest.length := by simpa using h
          have hsum : ((r :: rest).map List.length).take (i + 1)
              = r.length :: (rest.map List.length).take i := rfl
          rw [hsum, List.sum_cons]
          show ((r ++ rest.flatten).drop (r.length + ((rest.map List.length).take i).sum)).take
              (rest.getD i []).length = rest.getD i []
          rw [List.drop_append]
          exact ih i hi

theorem appendRows_state {T : Type} (rows : List (List (Option T))) :
    ∀ (c : ArrayNullable T),
      (appendRows c rows).offsets
          = c.offsets ++ cumFrom (c.offsets.getLast?.getD 0) (rows.map List.length)
      ∧ (appendRows c rows).innerData = c.innerData ++ rows.flatten
      ∧ (appendRows c rows).columnData = c.columnData := by
  induction rows with
  | nil =>
      intro c
      simp [appendRows, cumFrom]
  | cons r rest ih =>
      intro c
      obtain ⟨ho, hi, hc⟩ := ih (c.AppendP r)
      have hoff : (c.AppendP r).offsets
          = c.offsets ++ [c.offsets.getLast?.getD 0 + r.length] := rfl
      have hinner : (c.AppendP r).innerData = c.innerData ++ r := rfl
      have hcol : (c.AppendP r).columnData = c.columnData := rfl
      refine ⟨?_, ?_, ?_⟩
      · show (appendRows (c.AppendP r) rest).offsets = _
        rw [ho, hoff, List.getLast?_concat]
        simp [cumFrom]
      · show (appendRows (c.AppendP r) rest).innerData = _
        rw [hi, hinner]
        simp
      · show (appendRows (c.AppendP r) rest).columnData = _
        rw [hc, hcol]

theorem scanItems_ok {T : Type} :
    ∀ (n start : Nat), scanItems (T := T) (fun _ => none) start n = ScanOutcome.converted := by
  intro n
  induction n with
  | zero => intro start; rfl
  | succ n ih =>
      intro start
      show scanItems (fun _ => none) (start + 1) n = ScanOutcome.converted
      exact ih (start + 1)

theorem scanItems_failed {T : Type} (elemErr : Nat → Option String) (e : String) :
    ∀ (n start i : Nat), start ≤ i → i < start + n →
      (∀ j, j < i → elemErr j = none) → elemErr i = some e →
      scanItems (T := T) elemErr start n
        = ScanOutcome.failed ("cannot scan array item " ++ toString i ++ ": " ++ e) := by
  intro n
  induction n with
  | zero =>
      intro start i h1 h2 _ _
      omega
  | succ n ih =>
      intro start i h1 h2 hok he
      by_cases hsi : start = i
      · subst hsi
        simp [scanItems, he]
      · have h0 : elemErr start = none := hok start (by omega)
        simp only [scanItems, h0]
        exact ih (start + 1) i (by omega) (by omega) hok he

/-! ## Claim theorems -/

/-- C1: for the Uint64 scalar column, encode-then-decode is the identity — appending
any finite sequence of uint64 values (boundary values 0 and the maximum included)
via `Append` and decoding the resulting write buffer with `ReadAll`, or with
repeated `Next`+`Value`, yields exactly the same sequence, and each value occupies
exactly 8 little-endian bytes in the write buffer. -/
theorem c1_uint64_roundtrip (vs : List Nat) (hb : ∀ v ∈ vs, v < 2 ^ 64) :
    (appendAll (NewUint64 false) vs).writerData = encBytes vs
    ∧ (appendAll (NewUint64 false) vs).writerData.length = 8 * vs.length
    ∧ (Uint64.ReadAll
        ((NewUint64 false).bindRead ((appendAll (NewUint64 false) vs).writerData)) []).1 = vs
    ∧ nextSeqLoop
        ((NewUint64 false).bindRead ((appendAll (NewUint64 false) vs).writerData)) = vs := by
  have henc : (appendAll (NewUint64 false) vs).writerData = encBytes vs := by
    rw [appendAll_writerData]
    rfl
  refine ⟨henc, ?_, ?_, ?_⟩
  · rw [henc, encBytes_length]
  · rw [henc]
    show [] ++ readAllLoop (encBytes vs) 8 (encBytes vs).length 0 = vs
    rw [List.nil_append, readAllLoop_encBytes, map_mod64_eq_self vs hb]
  · rw [henc]
    rw [nextSeqLoop_eq_readAllLoop ((NewUint64 false).bindRead (encBytes vs)).totalByte
          ((NewUint64 false).bindRead (encBytes vs)) (by omega)]
    show readAllLoop (encBytes vs) 8 (encBytes vs).length 0 = vs
    rw [readAllLoop_encBytes, map_mod64_eq_self vs hb]

/-- Witness for C1 at the concrete sequence `[0, 2^64 - 1, 5]`, covering both
boundary values. -/
theorem c1_uint64_roundtrip_witness :
    (appendAll (NewUint64 false) [0, 18446744073709551615, 5]).writerData
        = encBytes [0, 18446744073709551615, 5]
    ∧ (appendAll (NewUint64 false) [0, 18446744073709551615, 5]).writerData.length
        = 8 * [0, 18446744073709551615, 5].length
    ∧ (Uint64.ReadAll
        ((NewUint64 false).bindRead
          ((appendAll (NewUint64 false) [0, 18446744073709551615, 5]).writerData)) []).1
        = [0, 18446744073709551615, 5]
    ∧ nextSeqLoop
        ((NewUint64 false).bindRead
          ((appendAll (NewUint64 false) [0, 18446744073709551615, 5]).writerData))
        = [0, 18446744073709551615, 5] :=
  c1_uint64_roundtrip [0, 18446744073709551615, 5] (by decide)

/-- C5: for a scalar column whose read buffer holds a whole number of
elementWidth-wide rows and whose cursor is at the start of the block, `ReadAll`
appends to its destination exactly the sequence obtained by repeatedly calling
`Next` and `Value` until `Next` returns false, and `ReadAll` leaves the cursor and
all other column state unchanged. -/
theorem c5_readAll_eq_next_value (c : Uint64) (vs : List Nat) (hi : c.i = 0)
    (hdvd : c.size ∣ c.totalByte) (hlen : c.totalByte ≤ c.b.length) (hpos : 0 < c.size) :
    (Uint64.ReadAll c vs).1 = vs ++ nextSeqLoop c ∧ (Uint64.ReadAll c vs).2 = c := by
  constructor
  · show vs ++ readAllLoop c.b c.size c.totalByte 0 = vs ++ nextSeqLoop c
    rw [nextSeqLoop_eq_readAllLoop c.totalByte c (by omega), hi]
  · rfl

/-- Witness for C5: a column bound to the 16-byte buffer encoding `[3, 9]`, with a
nonempty destination `[1]`. -/
theorem c5_readAll_eq_next_value_witness :
    (Uint64.ReadAll ((NewUint64 false).bindRead (u8Bytes 3 ++ u8Bytes 9)) [1]).1
        = [1] ++ nextSeqLoop ((NewUint64 false).bindRead (u8Bytes 3 ++ u8Bytes 9))
    ∧ (Uint64.ReadAll ((NewUint64 false).bindRead (u8Bytes 3 ++ u8Bytes 9)) [1]).2
        = (NewUint64 false).bindRead (u8Bytes 3 ++ u8Bytes 9) :=
  c5_readAll_eq_next_value ((NewUint64 false).bindRead (u8Bytes 3 ++ u8Bytes 9)) [1]
    rfl ⟨2, rfl⟩ (by decide) (by decide)

/-- C10: for the Uint64 column, `AppendEmpty()` and `Append(0)` have identical
effect on all column state: each appends exactly 8 zero bytes to the write buffer
and increments the row count by 1 (hence any interleaving of the two calls produces
byte-identical writer data and equal row counts). -/
theorem c10_appendEmpty_eq_append_zero (c : Uint64) (h8 : c.size = 8) :
    Uint64.AppendEmpty c = Uint64.Append c 0
    ∧ (Uint64.Append c 0).writerData = c.writerData ++ List.replicate 8 0
    ∧ (Uint64.Append c 0).numRow = c.numRow + 1 := by
  have hz : emptyByte.take c.size = List.replicate 8 0 := by
    rw [h8, emptyByte, List.take_replicate]
    norm_num
  have hu : u8Bytes 0 = List.replicate 8 0 := by decide
  refine ⟨?_, by simp [Uint64.Append, hu], rfl⟩
  show { c with numRow := c.numRow + 1, writerData := c.writerData ++ emptyByte.take c.size }
      = { c with numRow := c.numRow + 1, writerData := c.writerData ++ u8Bytes 0 }
  rw [hz, hu]

/-- Witness for C10 at a fresh non-nullable column. -/
theorem c10_appendEmpty_eq_append_zero_witness :
    Uint64.AppendEmpty (NewUint64 false) = Uint64.Append (NewUint64 false) 0
    ∧ (Uint64.Append (NewUint64 false) 0).writerData
        = (NewUint64 false).writerData ++ List.replicate 8 0
    ∧ (Uint64.Append (NewUint64 false) 0).numRow = (NewUint64 false).numRow + 1 :=
  c10_appendEmpty_eq_append_zero (NewUint64 false) rfl

/-- C2: for a non-nullable Uint64 column starting from a state with empty
dictionary, keys and write buffer (a fresh or freshly Reset column), the call
sequence `AppendDict a, b, a, c, b` with distinct values leaves the write buffer
holding exactly the encodings of `[a, b, c]` in first-occurrence order and
`Keys()` equal to `[0, 1, 0, 2, 1]`; and in general an `AppendDict` call with an
already-seen value appends only its existing key and never grows the value buffer
or the dictionary. -/
theorem c2_dict_dedup (s : Uint64) (hnul : s.nullable = false) (hdict : s.dict = [])
    (hkeys : s.keys = []) (hw : s.writerData = [])
    (a b c : Nat) (hab : a ≠ b) (hac : a ≠ c) (hbc : b ≠ c) :
    (dictScenario s a b c).writerData = u8Bytes a ++ (u8Bytes b ++ u8Bytes c)
    ∧ Uint64.Keys (dictScenario s a b c) = [0, 1, 0, 2, 1]
    ∧ (dictScenario s a b c).dict = [a, b, c]
    ∧ ∀ (u : Uint64) (v : Nat), v ∈ u.dict →
        (u.AppendDict v).writerData = u.writerData
        ∧ (u.AppendDict v).dict = u.dict
        ∧ ∃ k, dictFind u.dict v = some k
             ∧ (u.AppendDict v).keys = u.keys ++ [if u.nullable then k + 1 else k] := by
  refine ⟨?_, ?_, ?_, ?_⟩
  · simp [dictScenario, Uint64.AppendDict, Uint64.Append, dictFind,
      hnul, hdict, hkeys, hw, hab, hac, hbc]
  · simp [dictScenario, Uint64.AppendDict, Uint64.Append, Uint64.Keys, dictFind,
      hnul, hdict, hkeys, hw, hab, hac, hbc]
  · simp [dictScenario, Uint64.AppendDict, Uint64.Append, dictFind,
      hnul, hdict, hkeys, hw, hab, hac, hbc]
  · intro u v hv
    obtain ⟨k, hk⟩ := dictFind_mem u.dict v hv
    by_cases hn : u.nullable <;>
      exact ⟨by simp [Uint64.AppendDict, hk, hn], by simp [Uint64.AppendDict, hk, hn],
             k, hk, by simp [Uint64.AppendDict, hk, hn]⟩

/-- Witness for C2 at a fresh non-nullable column with values 1, 2, 3. -/
theorem c2_dict_dedup_witness :
    (dictScenario (NewUint64 false) 1 2 3).writerData = u8Bytes 1 ++ (u8Bytes 2 ++ u8Bytes 3)
    ∧ Uint64.Keys (dictScenario (NewUint64 false) 1 2 3) = [0, 1, 0, 2, 1]
    ∧ (dictScenario (NewUint64 false) 1 2 3).dict = [1, 2, 3]
    ∧ ∀ (u : Uint64) (v : Nat), v ∈ u.dict →
        (u.AppendDict v).writerData = u.writerData
        ∧ (u.AppendDict v).dict = u.dict
        ∧ ∃ k, dictFind u.dict v = some k
             ∧ (u.AppendDict v).keys = u.keys ++ [if u.nullable then k + 1 else k] :=
  c2_dict_dedup (NewUint64 false) rfl rfl rfl rfl 1 2 3 (by decide) (by decide) (by decide)

/-- C4: for a nullable Uint64 column in dictionary mode, `AppendDictNil` appends
key 0 (touching nothing else), `AppendDictP nil` has exactly the same effect on
all column state as `AppendDictNil`, `AppendDictP` of a non-nil value coincides
with `AppendDict`, and an `AppendDict` call with a value always appends the
value's dictionary position plus 1 — hence a key that is never 0. -/
theorem c4_nullable_dict_sentinel (c : Uint64) (hnul : c.nullable = true) (v : Nat) :
    Uint64.AppendDictNil c = { c with keys := c.keys ++ [0] }
    ∧ Uint64.AppendDictP c none = Uint64.AppendDictNil c
    ∧ Uint64.AppendDictP c (some v) = Uint64.AppendDict c v
    ∧ ∃ k, dictFind (Uint64.AppendDict c v).dict v = some k
         ∧ (Uint64.AppendDict c v).keys = c.keys ++ [k + 1] := by
  refine ⟨rfl, rfl, ?_, ?_⟩
  · cases hd : dictFind c.dict v with
    | some k => simp [Uint64.AppendDictP, Uint64.AppendDict, Uint64.Append, hd, hnul]
    | none => simp [Uint64.AppendDictP, Uint64.AppendDict, Uint64.Append, hd, hnul]
  · cases hd : dictFind c.dict v with
    | some k =>
        refine ⟨k, ?_, ?_⟩
        · have hu : (Uint64.AppendDict c v).dict = c.dict := by
            simp [Uint64.AppendDict, hd, hnul]
          rw [hu, hd]
        · simp [Uint64.AppendDict, hd, hnul]
    | none =>
        have hnm : v ∉ c.dict := (dictFind_eq_none_iff c.dict v).mp hd
        refine ⟨c.dict.length, ?_, ?_⟩
        · have hu : (Uint64.AppendDict c v).dict = c.dict ++ [v] := by
            simp [Uint64.AppendDict, hd, hnul, Uint64.Append]
          rw [hu, dictFind_concat_self c.dict v hnm]
        · simp [Uint64.AppendDict, hd, hnul, Uint64.Append]

/-- Witness for C4 at a fresh nullable column with value 5. -/
theorem c4_nullable_dict_sentinel_witness :
    Uint64.AppendDictNil (NewUint64 true)
        = { NewUint64 true with keys := (NewUint64 true).keys ++ [0] }
    ∧ Uint64.AppendDictP (NewUint64 true) none = Uint64.AppendDictNil (NewUint64 true)
    ∧ Uint64.AppendDictP (NewUint64 true) (some 5) = Uint64.AppendDict (NewUint64 true) 5
    ∧ ∃ k, dictFind (Uint64.AppendDict (NewUint64 true) 5).dict 5 = some k
         ∧ (Uint64.AppendDict (NewUint64 true) 5).keys = (NewUint64 true).keys ++ [k + 1] :=
  c4_nullable_dict_sentinel (NewUint64 true) rfl 5

/-- C3: for the DateTime column, `Append` of a time whose Unix epoch is ≤ 0 writes
exactly 4 all-zero bytes (never a two's-complement negative pattern), decoding the
resulting 4-byte all-zero span via `Next` or `ReadAll` yields the epoch-0 instant,
and hence encode-then-decode of any instant with epoch ≤ 0 returns epoch 0. -/
theorem c3_datetime_nonpositive_epoch (c : DateTime) (h4 : c.size = 4) (v : Int)
    (hv : v ≤ 0) :
    (c.Append v).writerData = c.writerData ++ List.replicate 4 0
    ∧ (c.Append v).numRow = c.numRow + 1
    ∧ (DateTime.Next ((NewDateTime false).bindRead
        (((NewDateTime false).Append v).writerData))).1 = true
    ∧ (DateTime.Next ((NewDateTime false).bindRead
        (((NewDateTime false).Append v).writerData))).2.Value = 0
    ∧ (DateTime.ReadAll ((NewDateTime false).bindRead
        (((NewDateTime false).Append v).writerData)) []).1 = [0] := by
  have hz : emptyByte.take 4 = List.replicate 4 0 := by
    rw [emptyByte, List.take_replicate]
    norm_num
  have happ : ∀ (d : DateTime), d.size = 4 →
      (d.Append v).writerData = d.writerData ++ List.replicate 4 0
      ∧ (d.Append v).numRow = d.numRow + 1 := by
    intro d hd
    rw [DateTime.Append, if_pos hv]
    exact ⟨by simp [hd, hz], rfl⟩
  obtain ⟨h1, h2⟩ := happ c h4
  have hw : ((NewDateTime false).Append v).writerData = List.replicate 4 0 := by
    obtain ⟨h1f, _⟩ := happ (NewDateTime false) rfl
    rw [h1f]
    rfl
  refine ⟨h1, h2, ?_, ?_, ?_⟩
  · rw [hw]
    decide
  · rw [hw]
    decide
  · rw [hw]
    show [] ++ dtReadAllLoop (List.replicate 4 0) 4 4 0 = [0]
    rw [show List.replicate 4 (0 : Nat) = u4Bytes 0 from rfl, dtReadAllLoop_u4]
    norm_num

/-- Witness for C3 at the pre-epoch instant with Unix epoch -3. -/
theorem c3_datetime_nonpositive_epoch_witness :
    ((NewDateTime false).Append (-3)).writerData
        = (NewDateTime false).writerData ++ List.replicate 4 0
    ∧ ((NewDateTime false).Append (-3)).numRow = (NewDateTime false).numRow + 1
    ∧ (DateTime.Next ((NewDateTime false).bindRead
        (((NewDateTime false).Append (-3)).writerData))).1 = true
    ∧ (DateTime.Next ((NewDateTime false).bindRead
        (((NewDateTime false).Append (-3)).writerData))).2.Value = 0
    ∧ (DateTime.ReadAll ((NewDateTime false).bindRead
        (((NewDateTime false).Append (-3)).writerData)) []).1 = [0] :=
  c3_datetime_nonpositive_epoch (NewDateTime false) rfl (-3) (by decide)

/-- C9: `DateTime.Append` writes only the low 32 bits of a positive epoch — the
4 bytes written are `Unix(v) mod 2^32` little-endian — so encode-then-decode
returns the original epoch if and only if it is below `2^32`; otherwise the
decoded epoch is the original one reduced modulo `2^32`. -/
theorem c9_datetime_low32 (v : Int) (hv : 0 < v) :
    ((NewDateTime false).Append v).writerData = u4Bytes (v.toNat % 2 ^ 32)
    ∧ (DateTime.ReadAll ((NewDateTime false).bindRead
        (((NewDateTime false).Append v).writerData)) []).1
        = [((v.toNat % 2 ^ 32 : Nat) : Int)]
    ∧ (((v.toNat % 2 ^ 32 : Nat) : Int) = v ↔ v < 2 ^ 32) := by
  have happ : ((NewDateTime false).Append v).writerData = u4Bytes v.toNat := by
    rw [DateTime.Append, if_neg (by omega)]
    rfl
  refine ⟨by rw [happ, u4Bytes_mod], ?_, ?_⟩
  · rw [happ]
    show [] ++ dtReadAllLoop (u4Bytes v.toNat) 4 4 0 = [((v.toNat % 2 ^ 32 : Nat) : Int)]
    rw [List.nil_append, dtReadAllLoop_u4]
  · rw [show (2 : Int) ^ 32 = 4294967296 from by norm_num,
        show (2 : Nat) ^ 32 = 4294967296 from by norm_num]
    omega

/-- Witness for C9 at the epoch 2^32 + 5, whose low 32 bits are 5. -/
theorem c9_datetime_low32_witness :
    ((NewDateTime false).Append 4294967301).writerData
        = u4Bytes ((4294967301 : Int).toNat % 2 ^ 32)
    ∧ (DateTime.ReadAll ((NewDateTime false).bindRead
        (((NewDateTime false).Append 4294967301).writerData)) []).1
        = [(((4294967301 : Int).toNat % 2 ^ 32 : Nat) : Int)]
    ∧ ((((4294967301 : Int).toNat % 2 ^ 32 : Nat) : Int) = 4294967301
        ↔ (4294967301 : Int) < 2 ^ 32) :=
  c9_datetime_low32 4294967301 (by decide)

/-- C6: `ArrayNullable.RowP i` returns the span
`columnData[offset[i-1] : offset[i]]` of the materialized inner data (with
`offset[-1]` taken as 0); after appending rows with element counts `n_0, n_1, ...`
the offsets are the cumulative sums and row `i` holds exactly the `i`-th appended
row; and the spec's concrete scenario (lengths 2, 0, 1 with elements 10, 20, 30)
gives offsets `[2, 2, 3]` and rows `[10, 20]`, `[]`, `[30]`. -/
theorem c6_array_offsets_rows (rows : List (List (Option Nat))) :
    (appendRows (NewArrayNullableFresh Nat) rows).offsets = cumFrom 0 (rows.map List.length)
    ∧ (∀ i, i < rows.length →
        (appendRows (NewArrayNullableFresh Nat) rows).RowP i = rows.getD i [])
    ∧ (∀ (c : ArrayNullable Nat) (i : Nat),
        c.RowP i = ((c.getColumnData.1.take (c.offsetRow i)).drop
            (if i = 0 then 0 else c.offsetRow (i - 1))))
    ∧ (arrayScenario.offsets = [2, 2, 3]
        ∧ arrayScenario.RowP 0 = [some 10, some 20]
        ∧ arrayScenario.RowP 1 = []
        ∧ arrayScenario.RowP 2 = [some 30]) := by
  obtain ⟨ho, hin, hcol⟩ := appendRows_state rows (NewArrayNullableFresh Nat)
  have hoff : (appendRows (NewArrayNullableFresh Nat) rows).offsets
      = cumFrom 0 (rows.map List.length) := by
    rw [ho]
    rfl
  have hinner : (appendRows (NewArrayNullableFresh Nat) rows).innerData = rows.flatten := by
    rw [hin]
    rfl
  have hcd : (appendRows (NewArrayNullableFresh Nat) rows).columnData = [] := by
    rw [hcol]
    rfl
  refine ⟨hoff, ?_, ?_, by decide⟩
  · intro i hi
    have hlen : i < (rows.map List.length).length := by simpa using hi
    have hget : (appendRows (NewArrayNullableFresh Nat) rows).getColumnData.1
        = rows.flatten := by
      rw [ArrayNullable.getColumnData, if_pos (by rw [hcd]; rfl)]
      exact hinner
    show ((appendRows (NewArrayNullableFresh Nat) rows).getColumnData.1.drop
        (if i ≠ 0 then (appendRows (NewArrayNullableFresh Nat) rows).offsetRow (i - 1) else 0)).take
        ((appendRows (NewArrayNullableFresh Nat) rows).offsetRow i
          - (if i ≠ 0 then (appendRows (NewArrayNullableFresh Nat) rows).offsetRow (i - 1) else 0))
        = rows.getD i []
    have hrow_i : (appendRows (NewArrayNullableFresh Nat) rows).offsetRow i
        = ((rows.map List.length).take (i + 1)).sum := by
      show (appendRows (NewArrayNullableFresh Nat) rows).offsets.getD i 0 = _
      rw [hoff, cumFrom_getD (rows.map List.length) 0 i hlen, Nat.zero_add]
    have hlo : (if i ≠ 0 then (appendRows (NewArrayNullableFresh Nat) rows).offsetRow (i - 1) else 0)
        = ((rows.map List.length).take i).sum := by
      cases i with
      | zero => simp
      | succ j =>
          rw [if_pos (Nat.succ_ne_zero j)]
          show (appendRows (NewArrayNullableFresh Nat) rows).offsets.getD (j + 1 - 1) 0 = _
          rw [hoff]
          rw [show j + 1 - 1 = j from rfl,
            cumFrom_getD (rows.map List.length) 0 j (by omega), Nat.zero_add]
    rw [hget, hlo, hrow_i, take_succ_sum (rows.map List.length) i hlen,
      Nat.add_sub_cancel_left, lens_getD rows i hi]
    exact join_slice rows i hi
  · intro c i
    show ((c.getColumnData.1.drop (if i ≠ 0 then c.offsetRow (i - 1) else 0)).take
        (c.offsetRow i - (if i ≠ 0 then c.offsetRow (i - 1) else 0))) = _
    by_cases hz : i = 0
    · subst hz
      simp [List.drop_take]
    · rw [if_pos hz, if_neg hz, List.drop_take]

/-- C7 counterexample: the error `ArrayNullable.Scan` returns for an incompatible
(non-slice) destination is the fixed string `dest must be a pointer to slice` for
every row — identical at rows 0 and 1 of the same column — so it identifies
neither the offending row index nor the expected vs. actual shape. -/
theorem c7_scan_error_counterexample :
    ArrayNullable.Scan
        { offsets := [2, 3], innerData := [some 1, some 2, some 3], columnData := [] } 0
        (ScanDest.nonSlice (T := Nat))
      = ScanOutcome.failed "dest must be a pointer to slice"
    ∧ ArrayNullable.Scan
        { offsets := [2, 3], innerData := [some 1, some 2, some 3], columnData := [] } 1
        (ScanDest.nonSlice (T := Nat))
      = ScanOutcome.failed "dest must be a pointer to slice" :=
  ⟨rfl, rfl⟩

/-- C7 amended: `Scan` with a matching destination (`*[]*T`, `*any`, or a slice
type assignable to `[]*T`) assigns that row's slice and returns nil; a non-slice
destination yields the fixed recoverable error `dest must be a pointer to slice`
(independent of the row, mentioning no shapes) with the destination unassigned; a
slice destination of a different element type is converted per element, and the
first failing flat element index `i` yields the error
`cannot scan array item i: ...` (again with the destination unassigned), while an
error-free conversion succeeds. -/
theorem c7_scan_amended (c : ArrayNullable Nat) (row i : Nat)
    (elemErr : Nat → Option String) (e : String)
    (hok : ∀ j, j < i → elemErr j = none) (he : elemErr i = some e)
    (hlo : (if row ≠ 0 then c.offsetRow (row - 1) else 0) ≤ i)
    (hhi : i < c.offsetRow row) :
    c.Scan row ScanDest.ptrSliceOptT = ScanOutcome.assigned (c.RowP row)
    ∧ c.Scan row ScanDest.ptrAny = ScanOutcome.assigned (c.RowP row)
    ∧ c.Scan row ScanDest.assignableSlice = ScanOutcome.assigned (c.RowP row)
    ∧ c.Scan row ScanDest.nonSlice = ScanOutcome.failed "dest must be a pointer to slice"
    ∧ c.Scan row (ScanDest.otherSlice (fun _ => none)) = ScanOutcome.converted
    ∧ c.Scan row (ScanDest.otherSlice elemErr)
        = ScanOutcome.failed ("cannot scan array item " ++ toString i ++ ": " ++ e) := by
  refine ⟨rfl, rfl, rfl, rfl, ?_, ?_⟩
  · exact scanItems_ok _ _
  · show scanItems elemErr (if row ≠ 0 then c.offsetRow (row - 1) else 0)
        (c.offsetRow row - (if row ≠ 0 then c.offsetRow (row - 1) else 0)) = _
    exact scanItems_failed elemErr e _ _ i hlo (by omega) hok he

/-- Witness for C7 amended: row 1 of a column with offsets `[2, 3]`, an inner scan
failing at flat element index 2 with message `boom`. -/
theorem c7_scan_amended_witness :
    (let c : ArrayNullable Nat :=
      { offsets := [2, 3], innerData := [some 1, some 2, some 3], columnData := [] }
     c.Scan 1 ScanDest.ptrSliceOptT = ScanOutcome.assigned (c.RowP 1)
     ∧ c.Scan 1 ScanDest.ptrAny = ScanOutcome.assigned (c.RowP 1)
     ∧ c.Scan 1 ScanDest.assignableSlice = ScanOutcome.assigned (c.RowP 1)
     ∧ c.Scan 1 ScanDest.nonSlice = ScanOutcome.failed "dest must be a pointer to slice"
     ∧ c.Scan 1 (ScanDest.otherSlice (fun _ => none)) = ScanOutcome.converted
     ∧ c.Scan 1 (ScanDest.otherSlice (fun j => if j < 2 then none else some "boom"))
        = ScanOutcome.failed ("cannot scan array item " ++ toString 2 ++ ": " ++ "boom")) :=
  c7_scan_amended
    { offsets := [2, 3], innerData := [some 1, some 2, some 3], columnData := [] } 1 2
    (fun j => if j < 2 then none else some "boom") "boom"
    (fun j hj => if_pos hj) rfl (by decide) (by decide)

/-- C8 counterexample: immediately after a decode (`ReadRaw`) completes — before
any read access — the `columnData` cache of an `ArrayNullable` is already
materialized, because `ReadRaw` itself sets it from the inner column's `DataP`. -/
theorem c8_eager_cache_counterexample :
    ((NewArrayNullableFresh Nat).ReadRaw [1] [some 7]).columnData = [some 7]
    ∧ ((NewArrayNullableFresh Nat).ReadRaw [1] [some 7]).columnData ≠ [] :=
  ⟨rfl, by decide⟩

/-- C8 amended: the flat optional-value cache of `ArrayNullable` is materialized
eagerly by `ReadRaw` (set to the inner column's `DataP` immediately after the
inner decode); `Reset` invalidates (clears) it through the `resetHook`; and
`getColumnData` — the accessor behind `DataP`, `ReadP` and `RowP` — recomputes the
cache from the inner column only when the cache is empty, leaving the rest of the
column state untouched. -/
theorem c8_cache_lifecycle (c : ArrayNullable Nat) (offs : List Nat)
    (inner : List (Option Nat)) :
    (c.ReadRaw offs inner).columnData = inner
    ∧ (ArrayNullable.Reset c).columnData = []
    ∧ c.getColumnData.1 = (if c.columnData = [] then c.innerData else c.columnData)
    ∧ c.getColumnData.2.columnData = (if c.columnData = [] then c.innerData else c.columnData)
    ∧ c.getColumnData.2.innerData = c.innerData
    ∧ c.getColumnData.2.offsets = c.offsets := by
  refine ⟨rfl, rfl, ?_, ?_, ?_, ?_⟩ <;>
    (by_cases hc : c.columnData = [] <;>
      simp [ArrayNullable.getColumnData, hc, List.length_eq_zero])

end Chconn
